/-
Verification of the oscillator / render core of `src/synth.c` (a minimal
wavetable synthesizer driven by a PortAudio callback).

Modelling conventions:
  * C `double`/`float` arithmetic on phases, volumes and sample values is
    idealized as exact rational arithmetic (`ℚ`); the transcendental sine
    table built by `initTables` is idealized over `ℝ` with `Real.sin`.
  * C machine integers are modelled as `ℤ`/`ℕ`; where the C code mixes
    signed and unsigned operands (the envelope comparison
    `frames_played >= num_frames - framesPerBuffer` and the bookkeeping
    comparison `frames_played >= num_frames`, both performed after the
    usual arithmetic conversions at `unsigned long` width) the conversion
    to 64-bit unsigned is made explicit with `% 2^64`.
  * The per-voice PortAudio ring buffer is single-producer/single-consumer;
    from the consumer's (audio thread's) point of view it is a FIFO list of
    `note` records, which is how it is modelled here.  The per-voice
    semaphore `finished` is modelled by `posts`, the number of `sem_post`
    calls performed on it.
  * The C `enum note_type` is an `int`; it is modelled as `ℕ` so that
    values outside the four declared tags remain representable (the render
    path of `getNextFrame` branches on them).
-/
import Mathlib

namespace Synth

/-- SAMPLE_RATE from synth.c. -/
def SAMPLE_RATE : Nat := 44100

/-- FRAMES_PER_BUFFER from synth.c. -/
def FRAMES_PER_BUFFER : Nat := 210

/-- TABLE_SIZE from synth.c. -/
def TABLE_SIZE : Nat := 210

/-- NUM_OSCILLATORS from synth.c. -/
def NUM_OSCILLATORS : Nat := 2

/-- Tag value of `NOTE` in `enum note_type` (C enums start at 0). -/
def NOTE : Nat := 0

/-- Tag value of `REST` in `enum note_type`. -/
def REST : Nat := 1

/-- Tag value of `WAITING` in `enum note_type`. -/
def WAITING : Nat := 2

/-- Tag value of `END` in `enum note_type`. -/
def END : Nat := 3

/-- Model of `struct note`: a tag (kept as a raw integer, since the C field
is an `int` and the render path must handle out-of-range tags), a duration
in milliseconds and a frequency in hertz. -/
structure Note where
  type : Nat
  ms : Nat
  hz : ℚ
deriving DecidableEq

/-- Model of `struct frame`: one interleaved stereo sample. -/
structure Frame where
  left : ℚ
  right : ℚ
deriving DecidableEq

/-- Model of `struct osc` (the ring buffer is passed separately as a FIFO
list; `posts` counts `sem_post(&osc->finished)` calls). -/
structure Osc where
  table : ℤ → ℚ
  vol : ℚ
  left_phase : ℚ
  right_phase : ℚ
  frames_played : ℤ
  num_frames : Nat
  curr_note : Note
  posts : Nat

/-- Conversion of a C `int` value to `unsigned long` (64-bit) as performed
by the usual arithmetic conversions. -/
def u64 (x : ℤ) : Nat := (x % (2 : ℤ) ^ 64).toNat

/-- Subtraction of two `unsigned long` values, with 64-bit wraparound. -/
def subU64 (a b : Nat) : Nat := (a % 2 ^ 64 + (2 ^ 64 - b % 2 ^ 64)) % 2 ^ 64

/-- Model of `osc->num_frames = (osc->curr_note.ms / 1000.0) * SAMPLE_RATE`:
the double value `ms/1000*44100` truncated by the cast to `unsigned long`
(for the nonnegative values arising here, truncation is the floor, which is
Nat division). -/
def numFrames (ms : Nat) : Nat := ms * SAMPLE_RATE / 1000

/-- C cast of a `double` to an integer type: truncation toward zero. -/
def cTrunc (q : ℚ) : ℤ := if 0 ≤ q then ⌊q⌋ else -⌊-q⌋

/-- The per-sample envelope volume computed by `paCallback` for buffer index
`i`, given the voice's `frames_played` (C `int`) and `num_frames` (C
`unsigned long`) and the callback's `framesPerBuffer` argument.  The
ramp-down test `fp >= nf - fpb` is performed at `unsigned long` width. -/
def volAt (fp : ℤ) (nf fpb i : Nat) : ℚ :=
  if fp = 0 then ((i : ℚ) + 1) / (fpb : ℚ)
  else if subU64 nf fpb ≤ u64 fp then 1 - ((i : ℚ) + 1) / (fpb : ℚ)
  else 1

/-- Model of `getNextFrame`: silence for `REST`/`WAITING`/`END`, otherwise
("note must be of type NOTE (or something crazy)") a wavetable lookup at the
truncated phases followed by the phase advance and single-subtraction wrap. -/
def getNextFrame (o : Osc) : Frame × Osc :=
  if o.curr_note.type = REST ∨ o.curr_note.type = WAITING ∨ o.curr_note.type = END then
    (⟨0, 0⟩, o)
  else
    let f : Frame := ⟨o.table (cTrunc o.left_phase), o.table (cTrunc o.right_phase)⟩
    let lp := o.left_phase + o.curr_note.hz / (TABLE_SIZE : ℚ)
    let rp := o.right_phase + o.curr_note.hz / (TABLE_SIZE : ℚ)
    let lp2 := if (TABLE_SIZE : ℚ) ≤ lp then lp - (TABLE_SIZE : ℚ) else lp
    let rp2 := if (TABLE_SIZE : ℚ) ≤ rp then rp - (TABLE_SIZE : ℚ) else rp
    (f, { o with left_phase := lp2, right_phase := rp2 })

/-- The placeholder note the callback synthesizes when the ring buffer is
empty (or when an `END` was just consumed): `ms = 0`, `hz = 0`, `WAITING`. -/
def waitingNote : Note := ⟨WAITING, 0, 0⟩

/-- Phase 1 of `paCallback` for one voice: if the voice is idle
(`frames_played == -1`), pop the next note from the ring buffer (or
synthesize `waitingNote` when empty), post the semaphore and reduce to
`waitingNote` if it is an `END`, then reset `frames_played` to 0 and set
`num_frames` from the loaded note's duration. -/
def refill (q : List Note) (o : Osc) : List Note × Osc :=
  if o.frames_played = -1 then
    let qn : List Note × Note :=
      match q with
      | [] => ([], waitingNote)
      | n :: rest => (rest, n)
    let po : Osc × Note :=
      if qn.2.type = END then ({ o with posts := o.posts + 1 }, waitingNote)
      else (o, qn.2)
    let o2 : Osc :=
      { po.1 with curr_note := po.2, frames_played := 0,
                  num_frames := numFrames po.2.ms }
    (qn.1, o2)
  else (q, o)

/-- One voice's work at buffer index `i` inside the render loop of
`paCallback`: store the envelope volume into `osc->vol`, then produce the
voice's frame with `getNextFrame`. -/
def oscSample (fpb i : Nat) (o : Osc) : Frame × Osc :=
  getNextFrame { o with vol := volAt o.frames_played o.num_frames fpb i }

/-- Iterating one voice's per-sample work over `k` consecutive buffer
indices starting at `i` (the state evolution a voice undergoes during the
render loop). -/
def oscRenderFrom (fpb i : Nat) : Nat → Osc → Osc
  | 0, o => o
  | k + 1, o => oscRenderFrom fpb (i + 1) k (oscSample fpb i o).2

/-- Phase 3 of `paCallback` for one voice: advance `frames_played` by the
buffer size unless the loaded note is `WAITING`, then return the voice to
idle when `frames_played >= num_frames` (an `int` vs `unsigned long`
comparison). -/
def bookkeep (fpb : Nat) (o : Osc) : Osc :=
  let fp : ℤ := if o.curr_note.type ≠ WAITING then o.frames_played + (fpb : ℤ)
                else o.frames_played
  if o.num_frames ≤ u64 fp then { o with frames_played := -1, num_frames := 0 }
  else { o with frames_played := fp }

/-- One full `paCallback` invocation restricted to a single voice and its
ring buffer (the voices are mutually independent apart from the final mix,
see `paCallback_voices`). -/
def oscCallback (fpb : Nat) (s : List Note × Osc) : List Note × Osc :=
  let p := refill s.1 s.2
  (p.1, bookkeep fpb (oscRenderFrom fpb 0 fpb p.2))

/-- `n` consecutive invocations of the render callback on one voice. -/
def run (fpb : Nat) : Nat → List Note × Osc → List Note × Osc
  | 0, s => s
  | n + 1, s => run fpb n (oscCallback fpb s)

/-- The voice state seen by the render loop of callback number `n + 1`:
the state after `n` complete callbacks, after Phase 1 of the next one. -/
def postRefillOsc (fpb n : Nat) (s : List Note × Osc) : Osc :=
  (refill (run fpb n s).1 (run fpb n s).2).2

/-- The inner per-voice loop of the render phase: each voice contributes its
frame divided by `NUM_OSCILLATORS` to the mixed output frame.  (The C code
accumulates voice 0 first; this recursion adds the head's contribution last,
which is the same sum in the exact arithmetic used here.) -/
def renderOscs (fpb i : Nat) : List Osc → Frame × List Osc
  | [] => (⟨0, 0⟩, [])
  | o :: rest =>
    let fo := oscSample fpb i o
    let fr := renderOscs fpb i rest
    (⟨fr.1.left + fo.1.left / (NUM_OSCILLATORS : ℚ),
      fr.1.right + fo.1.right / (NUM_OSCILLATORS : ℚ)⟩, fo.2 :: fr.2)

/-- The outer render loop: `k` output frames starting at buffer index `i`. -/
def renderFrom (fpb i : Nat) : Nat → List Osc → List Frame × List Osc
  | 0, os => ([], os)
  | k + 1, os =>
    let fo := renderOscs fpb i os
    let rest := renderFrom fpb (i + 1) k fo.2
    (fo.1 :: rest.1, rest.2)

/-- Model of a full `paCallback` invocation over the whole voice array:
Phase 1 (refill every idle voice), Phase 2 (`framesPerBuffer` mixed output
frames), Phase 3 (bookkeeping for every voice). -/
def paCallback (fpb : Nat) (vs : List (List Note × Osc)) :
    List (List Note × Osc) × List Frame :=
  let vs1 := vs.map (fun v => refill v.1 v.2)
  let pr := renderFrom fpb 0 fpb (vs1.map Prod.snd)
  ((vs1.map Prod.fst).zip (pr.2.map (bookkeep fpb)), pr.1)

/-- The note enqueued by `playOsc(id, ms, hz)`. -/
def playNote (ms : Nat) (hz : ℚ) : Note := ⟨NOTE, ms, hz⟩

/-- The note enqueued by `restOsc(id, ms)`. -/
def restNote (ms : Nat) : Note := ⟨REST, ms, 0⟩

/-- The note enqueued by `endOsc(id)`. -/
def endNote : Note := ⟨END, 0, 0⟩

/-- A voice as set up by `initOscillators`: phases zeroed, `vol = 0`,
`frames_played = -1`, `num_frames = -1` (which wraps to `2^64 - 1` in the
`unsigned long` field), semaphore initialized to 0, and `curr_note`
zero-initialized (the C global array is zero-initialized). -/
def initOsc (t : ℤ → ℚ) : Osc :=
  { table := t, vol := 0, left_phase := 0, right_phase := 0,
    frames_played := -1, num_frames := 2 ^ 64 - 1,
    curr_note := ⟨NOTE, 0, 0⟩, posts := 0 }

/-- Voice states reachable from `initOscillators` by any sequence of render
callbacks, with arbitrary ring-buffer contents and buffer sizes. -/
def ReachableOsc (o : Osc) : Prop :=
  ∃ (steps : List (Nat × List Note)) (t : ℤ → ℚ),
    o = steps.foldl (fun acc s => (oscCallback s.1 (s.2, acc)).2) (initOsc t)

/-- The number of whole buffers a dequeued event of duration `ms` occupies:
at least one, and enough to cover `numFrames ms` samples. -/
def buffersFor (ms : Nat) : Nat := max 1 ((numFrames ms + 209) / 210)

/-- Total number of callbacks needed to drain a list of events. -/
def sumB (evs : List Note) : Nat := (evs.map (fun e => buffersFor e.ms)).sum

/-- The sine wavetable built by `initTables` (float/libm `sin` idealized as
`Real.sin`): `sine[i] = sin(i/TABLE_SIZE * π * 2)`. -/
noncomputable def sine (i : ℤ) : ℝ :=
  Real.sin ((i : ℝ) / (TABLE_SIZE : ℝ) * Real.pi * 2)

/-- The sawtooth wavetable built by `initTables`:
`saw[i] = 1.0 - 2.0 * (i / TABLE_SIZE)`. -/
noncomputable def saw (i : ℤ) : ℝ := 1 - 2 * ((i : ℝ) / (TABLE_SIZE : ℝ))

/-- The "noise" wavetable built by `initTables`: the third loop evaluates
exactly the same expression as the sine loop,
`noise[i] = sin(i/TABLE_SIZE * π * 2)`. -/
noncomputable def noise (i : ℤ) : ℝ :=
  Real.sin ((i : ℝ) / (TABLE_SIZE : ℝ) * Real.pi * 2)

/-- Exact-rational version of the sawtooth table, used as a concrete
wavetable in counterexample states (`saw[0] = 1` exactly, also in C). -/
def sawQ (i : ℤ) : ℚ := 1 - 2 * ((i : ℚ) / (TABLE_SIZE : ℚ))

/-- The same event re-tagged as a declared `NOTE` (used to state that
out-of-range tags render identically to notes). -/
def asNote (n : Note) : Note := ⟨NOTE, n.ms, n.hz⟩

/-- A concrete voice state with zero phases and volume: table `t`,
`frames_played = fp`, `num_frames = nf`, current event `n`, no posts. -/
def mkOsc (t : ℤ → ℚ) (fp : ℤ) (nf : Nat) (n : Note) : Osc :=
  { table := t, vol := 0, left_phase := 0, right_phase := 0,
    frames_played := fp, num_frames := nf, curr_note := n, posts := 0 }

/-- The spec's formula for the instantaneous envelope volume, read with
mathematical integer arithmetic (the ramp-down condition
`frames_played >= frames_total - frames_per_buffer` taken over `ℤ`, with no
unsigned wraparound); to be compared with the code's `volAt`. -/
def claimVol (fp : ℤ) (nf fpb i : Nat) : ℚ :=
  if fp = 0 then ((i : ℚ) + 1) / (fpb : ℚ)
  else if (nf : ℤ) - (fpb : ℤ) ≤ fp then 1 - ((i : ℚ) + 1) / (fpb : ℚ)
  else 1

/-- `n` consecutive `getNextFrame` calls on a voice (the phase evolution a
voice undergoes over `n` rendered samples). -/
def gnfIter : Nat → Osc → Osc
  | 0, o => o
  | n + 1, o => gnfIter n (getNextFrame o).2

/-- Invariant of a voice between callbacks (with `fpb = 210` and all queued
durations below `2^32` ms): either idle, or mid-event with a non-`WAITING`
note, `210 ≤ frames_played < num_frames` and `num_frames < 2^63`. -/
def endInv (o : Osc) : Prop :=
  o.frames_played = -1 ∨
    (o.curr_note.type ≠ WAITING ∧ (210 : ℤ) ≤ o.frames_played ∧
     o.frames_played < (o.num_frames : ℤ) ∧ o.num_frames < 2 ^ 63)

/-- Invariant of a voice during the render loop (after Phase 1): freshly
loaded (`frames_played = 0`, and 0 frames if the placeholder `WAITING`) or
carried over mid-event. -/
def renderInv (o : Osc) : Prop :=
  (o.frames_played = 0 ∨
    ((210 : ℤ) ≤ o.frames_played ∧ o.frames_played < (o.num_frames : ℤ))) ∧
  o.num_frames < 2 ^ 63 ∧
  (o.curr_note.type = WAITING → o.num_frames = 0 ∧ o.frames_played = 0)

/-! Field-preservation lemmas: the render phase touches only `vol` and the
phase accumulators, never the bookkeeping fields. -/

lemma getNextFrame_state (o : Osc) :
    (getNextFrame o).2.frames_played = o.frames_played ∧
    (getNextFrame o).2.num_frames = o.num_frames ∧
    (getNextFrame o).2.curr_note = o.curr_note ∧
    (getNextFrame o).2.posts = o.posts ∧
    (getNextFrame o).2.vol = o.vol ∧
    (getNextFrame o).2.table = o.table := by
  simp only [getNextFrame]
  split
  · exact ⟨rfl, rfl, rfl, rfl, rfl, rfl⟩
  · exact ⟨rfl, rfl, rfl, rfl, rfl, rfl⟩

lemma oscSample_state (fpb i : Nat) (o : Osc) :
    (oscSample fpb i o).2.frames_played = o.frames_played ∧
    (oscSample fpb i o).2.num_frames = o.num_frames ∧
    (oscSample fpb i o).2.curr_note = o.curr_note ∧
    (oscSample fpb i o).2.posts = o.posts ∧
    (oscSample fpb i o).2.table = o.table := by
  have h := getNextFrame_state { o with vol := volAt o.frames_played o.num_frames fpb i }
  exact ⟨h.1, h.2.1, h.2.2.1, h.2.2.2.1, h.2.2.2.2.2⟩

lemma oscRenderFrom_state (fpb : Nat) :
    ∀ (k i : Nat) (o : Osc),
    (oscRenderFrom fpb i k o).frames_played = o.frames_played ∧
    (oscRenderFrom fpb i k o).num_frames = o.num_frames ∧
    (oscRenderFrom fpb i k o).curr_note = o.curr_note ∧
    (oscRenderFrom fpb i k o).posts = o.posts ∧
    (oscRenderFrom fpb i k o).table = o.table := by
  intro k
  induction k with
  | zero => exact fun i o => ⟨rfl, rfl, rfl, rfl, rfl⟩
  | succ k ih =>
    intro i o
    have h1 := oscSample_state fpb i o
    have h2 := ih (i + 1) (oscSample fpb i o).2
    simp only [oscRenderFrom]
    exact ⟨h2.1.trans h1.1, h2.2.1.trans h1.2.1, h2.2.2.1.trans h1.2.2.1,
           h2.2.2.2.1.trans h1.2.2.2.1, h2.2.2.2.2.trans h1.2.2.2.2⟩

lemma bookkeep_curr (fpb : Nat) (o : Osc) :
    (bookkeep fpb o).curr_note = o.curr_note := by
  simp only [bookkeep]
  split <;> split <;> rfl

lemma bookkeep_posts (fpb : Nat) (o : Osc) :
    (bookkeep fpb o).posts = o.posts := by
  simp only [bookkeep]
  split <;> split <;> rfl

lemma bookkeep_table (fpb : Nat) (o : Osc) :
    (bookkeep fpb o).table = o.table := by
  simp only [bookkeep]
  split <;> split <;> rfl

/-! Characterizations of Phase 1 (`refill`). -/

lemma refill_not_idle (q : List Note) (o : Osc) (h : o.frames_played ≠ -1) :
    refill q o = (q, o) := by
  simp only [refill, if_neg h]

lemma refill_idle_cons (n : Note) (q : List Note) (o : Osc)
    (ho : o.frames_played = -1) (hn : n.type ≠ END) :
    refill (n :: q) o =
      (q, { o with curr_note := n, frames_played := 0,
                   num_frames := numFrames n.ms }) := by
  simp only [refill, if_pos ho, if_neg hn]

lemma refill_idle_end (q : List Note) (o : Osc) (ho : o.frames_played = -1) :
    refill (endNote :: q) o =
      (q, { o with posts := o.posts + 1, curr_note := waitingNote,
                   frames_played := 0, num_frames := 0 }) := by
  simp only [refill, if_pos ho]
  norm_num [endNote, waitingNote, numFrames, END]

lemma refill_idle_endtype (n : Note) (q : List Note) (o : Osc)
    (ho : o.frames_played = -1) (hn : n.type = END) :
    refill (n :: q) o =
      (q, { o with posts := o.posts + 1, curr_note := waitingNote,
                   frames_played := 0, num_frames := 0 }) := by
  simp only [refill, if_pos ho, if_pos hn]
  norm_num [waitingNote, numFrames]

lemma refill_idle_nil (o : Osc) (ho : o.frames_played = -1) :
    refill [] o =
      ([], { o with curr_note := waitingNote, frames_played := 0,
                    num_frames := 0 }) := by
  simp only [refill, if_pos ho]
  norm_num [waitingNote, numFrames, END, WAITING]

/-! Characterizations of Phase 3 (`bookkeep`). -/

lemma bookkeep_adv_done (fpb : Nat) (o : Osc)
    (hty : o.curr_note.type ≠ WAITING) (h0 : 0 ≤ o.frames_played)
    (hub : o.frames_played + (fpb : ℤ) < 2 ^ 64)
    (hdone : (o.num_frames : ℤ) ≤ o.frames_played + (fpb : ℤ)) :
    (bookkeep fpb o).frames_played = -1 ∧ (bookkeep fpb o).num_frames = 0 := by
  have hcond : o.num_frames ≤ u64 (o.frames_played + (fpb : ℤ)) := by
    simp only [u64]
    omega
  simp only [bookkeep, if_pos hty, if_pos hcond]
  constructor <;> trivial

lemma bookkeep_adv_go (fpb : Nat) (o : Osc)
    (hty : o.curr_note.type ≠ WAITING) (h0 : 0 ≤ o.frames_played)
    (hub : o.frames_played + (fpb : ℤ) < 2 ^ 64)
    (hgo : o.frames_played + (fpb : ℤ) < (o.num_frames : ℤ)) :
    (bookkeep fpb o).frames_played = o.frames_played + (fpb : ℤ) ∧
    (bookkeep fpb o).num_frames = o.num_frames := by
  have hcond : ¬ o.num_frames ≤ u64 (o.frames_played + (fpb : ℤ)) := by
    simp only [u64]
    omega
  simp only [bookkeep, if_pos hty, if_neg hcond]
  constructor <;> trivial

lemma bookkeep_wait_zero (fpb : Nat) (o : Osc)
    (hty : o.curr_note.type = WAITING) (h0 : o.frames_played = 0)
    (hnf : o.num_frames = 0) :
    (bookkeep fpb o).frames_played = -1 ∧ (bookkeep fpb o).num_frames = 0 := by
  have hty2 : ¬ o.curr_note.type ≠ WAITING := by simp [hty]
  have hcond : o.num_frames ≤ u64 o.frames_played := by
    simp [u64, h0, hnf]
  simp only [bookkeep, if_neg hty2, if_pos hcond]
  constructor <;> trivial

/-! Behaviour of one full callback on a single voice, by scenario. -/

lemma callback_start (fpb : Nat) (n : Note) (q : List Note) (o : Osc)
    (ho : o.frames_played = -1) (h1 : n.type ≠ END) (h2 : n.type ≠ WAITING)
    (hfpb : (fpb : ℤ) < 2 ^ 64) :
    (oscCallback fpb (n :: q, o)).1 = q ∧
    (oscCallback fpb (n :: q, o)).2.curr_note = n ∧
    (oscCallback fpb (n :: q, o)).2.posts = o.posts ∧
    (numFrames n.ms ≤ fpb →
      (oscCallback fpb (n :: q, o)).2.frames_played = -1 ∧
      (oscCallback fpb (n :: q, o)).2.num_frames = 0) ∧
    (fpb < numFrames n.ms →
      (oscCallback fpb (n :: q, o)).2.frames_played = (fpb : ℤ) ∧
      (oscCallback fpb (n :: q, o)).2.num_frames = numFrames n.ms) := by
  have hr := refill_idle_cons n q o ho h1
  have ho2 : (oscCallback fpb (n :: q, o)).2
      = bookkeep fpb (oscRenderFrom fpb 0 fpb
          { o with curr_note := n, frames_played := 0,
                   num_frames := numFrames n.ms }) := by
    simp only [oscCallback, hr]
  have hst := oscRenderFrom_state fpb fpb 0
    { o with curr_note := n, frames_played := 0, num_frames := numFrames n.ms }
  have hty : (oscRenderFrom fpb 0 fpb
      { o with curr_note := n, frames_played := 0,
               num_frames := numFrames n.ms }).curr_note.type ≠ WAITING := by
    rw [hst.2.2.1]
    exact h2
  have hfp0 : (oscRenderFrom fpb 0 fpb
      { o with curr_note := n, frames_played := 0,
               num_frames := numFrames n.ms }).frames_played = 0 := hst.1
  have hnf : (oscRenderFrom fpb 0 fpb
      { o with curr_note := n, frames_played := 0,
               num_frames := numFrames n.ms }).num_frames = numFrames n.ms :=
    hst.2.1
  refine ⟨by simp only [oscCallback, hr], ?_, ?_, ?_, ?_⟩
  · rw [ho2, bookkeep_curr, hst.2.2.1]
  · rw [ho2, bookkeep_posts, hst.2.2.2.1]
  · intro hle
    rw [ho2]
    exact bookkeep_adv_done fpb _ hty (by rw [hfp0]) (by rw [hfp0]; omega)
      (by rw [hfp0, hnf]; omega)
  · intro hlt
    rw [ho2]
    have hgo := bookkeep_adv_go fpb _ hty (by rw [hfp0] : (0:ℤ) ≤ _)
      (by rw [hfp0]; omega) (by rw [hfp0, hnf]; omega)
    rw [hfp0, hnf] at hgo
    simpa using hgo

lemma callback_mid (fpb : Nat) (q : List Note) (o : Osc)
    (h0 : 0 ≤ o.frames_played) (hty : o.curr_note.type ≠ WAITING)
    (hub : o.frames_played + (fpb : ℤ) < 2 ^ 64) :
    (oscCallback fpb (q, o)).1 = q ∧
    (oscCallback fpb (q, o)).2.curr_note = o.curr_note ∧
    (oscCallback fpb (q, o)).2.posts = o.posts ∧
    ((o.num_frames : ℤ) ≤ o.frames_played + (fpb : ℤ) →
      (oscCallback fpb (q, o)).2.frames_played = -1 ∧
      (oscCallback fpb (q, o)).2.num_frames = 0) ∧
    (o.frames_played + (fpb : ℤ) < (o.num_frames : ℤ) →
      (oscCallback fpb (q, o)).2.frames_played = o.frames_played + (fpb : ℤ) ∧
      (oscCallback fpb (q, o)).2.num_frames = o.num_frames) := by
  have hni : o.frames_played ≠ -1 := by omega
  have hr := refill_not_idle q o hni
  have ho2 : (oscCallback fpb (q, o)).2
      = bookkeep fpb (oscRenderFrom fpb 0 fpb o) := by
    simp only [oscCallback, hr]
  have hst := oscRenderFrom_state fpb fpb 0 o
  have hty2 : (oscRenderFrom fpb 0 fpb o).curr_note.type ≠ WAITING := by
    rw [hst.2.2.1]
    exact hty
  refine ⟨by simp only [oscCallback, hr], ?_, ?_, ?_, ?_⟩
  · rw [ho2, bookkeep_curr, hst.2.2.1]
  · rw [ho2, bookkeep_posts, hst.2.2.2.1]
  · intro hle
    rw [ho2]
    exact bookkeep_adv_done fpb _ hty2 (by rw [hst.1]; exact h0)
      (by rw [hst.1]; omega) (by rw [hst.1, hst.2.1]; omega)
  · intro hlt
    rw [ho2]
    have hgo := bookkeep_adv_go fpb _ hty2 (by rw [hst.1]; exact h0)
      (by rw [hst.1]; omega) (by rw [hst.1, hst.2.1]; omega)
    rw [hst.1, hst.2.1] at hgo
    exact hgo

lemma callback_end (fpb : Nat) (q : List Note) (o : Osc)
    (ho : o.frames_played = -1) :
    (oscCallback fpb (endNote :: q, o)).1 = q ∧
    (oscCallback fpb (endNote :: q, o)).2.posts = o.posts + 1 ∧
    (oscCallback fpb (endNote :: q, o)).2.frames_played = -1 ∧
    (oscCallback fpb (endNote :: q, o)).2.num_frames = 0 ∧
    (oscCallback fpb (endNote :: q, o)).2.curr_note = waitingNote := by
  have hr := refill_idle_end q o ho
  have ho2 : (oscCallback fpb (endNote :: q, o)).2
      = bookkeep fpb (oscRenderFrom fpb 0 fpb
          { o with posts := o.posts + 1, curr_note := waitingNote,
                   frames_played := 0, num_frames := 0 }) := by
    simp only [oscCallback, hr]
  have hst := oscRenderFrom_state fpb fpb 0
    { o with posts := o.posts + 1, curr_note := waitingNote,
             frames_played := 0, num_frames := 0 }
  have hbk := bookkeep_wait_zero fpb (oscRenderFrom fpb 0 fpb
      { o with posts := o.posts + 1, curr_note := waitingNote,
               frames_played := 0, num_frames := 0 })
    (by rw [hst.2.2.1]; rfl) hst.1 hst.2.1
  refine ⟨by simp only [oscCallback, hr], ?_, ?_, ?_, ?_⟩
  · rw [ho2, bookkeep_posts, hst.2.2.2.1]
  · rw [ho2]
    exact hbk.1
  · rw [ho2]
    exact hbk.2
  · rw [ho2, bookkeep_curr, hst.2.2.1]

lemma callback_empty (fpb : Nat) (o : Osc) (ho : o.frames_played = -1) :
    (oscCallback fpb ([], o)).1 = [] ∧
    (oscCallback fpb ([], o)).2.posts = o.posts ∧
    (oscCallback fpb ([], o)).2.frames_played = -1 ∧
    (oscCallback fpb ([], o)).2.num_frames = 0 ∧
    (oscCallback fpb ([], o)).2.curr_note = waitingNote := by
  have hr := refill_idle_nil o ho
  have ho2 : (oscCallback fpb ([], o)).2
      = bookkeep fpb (oscRenderFrom fpb 0 fpb
          { o with curr_note := waitingNote, frames_played := 0,
                   num_frames := 0 }) := by
    simp only [oscCallback, hr]
  have hst := oscRenderFrom_state fpb fpb 0
    { o with curr_note := waitingNote, frames_played := 0, num_frames := 0 }
  have hbk := bookkeep_wait_zero fpb (oscRenderFrom fpb 0 fpb
      { o with curr_note := waitingNote, frames_played := 0, num_frames := 0 })
    (by rw [hst.2.2.1]; rfl) hst.1 hst.2.1
  refine ⟨by simp only [oscCallback, hr], ?_, ?_, ?_, ?_⟩
  · rw [ho2, bookkeep_posts, hst.2.2.2.1]
  · rw [ho2]
    exact hbk.1
  · rw [ho2]
    exact hbk.2
  · rw [ho2, bookkeep_curr, hst.2.2.1]

/-! Iteration lemmas for `run`. -/

lemma run_add (fpb a b : Nat) (s : List Note × Osc) :
    run fpb (a + b) s = run fpb b (run fpb a s) := by
  induction a generalizing s with
  | zero => rw [Nat.zero_add]; rfl
  | succ a ih =>
    have hab : a + 1 + b = a + b + 1 := by omega
    rw [hab]
    show run fpb (a + b) (oscCallback fpb s) = _
    rw [ih (oscCallback fpb s)]
    rfl

lemma run_empty_iter (fpb : Nat) (o : Osc) (ho : o.frames_played = -1) :
    ∀ k, (run fpb k ([], o)).1 = [] ∧
      (run fpb k ([], o)).2.frames_played = -1 ∧
      (run fpb k ([], o)).2.posts = o.posts := by
  intro k
  induction k generalizing o with
  | zero => exact ⟨rfl, ho, rfl⟩
  | succ k ih =>
    have hc := callback_empty fpb o ho
    rcases hq : oscCallback fpb ([], o) with ⟨q2, o2⟩
    rw [hq] at hc
    have hstep : run fpb (k + 1) ([], o) = run fpb k (q2, o2) := by
      show run fpb k (oscCallback fpb ([], o)) = _
      rw [hq]
    rcases hc with ⟨hq2, hp2, hf2, _, _⟩
    subst hq2
    have := ih o2 hf2
    rw [hstep]
    exact ⟨this.1, this.2.1, this.2.2.trans hp2⟩

/-! Arithmetic facts about the buffer count of an event. -/

lemma buffersFor_le_iff (ms m : Nat) :
    buffersFor ms ≤ m ↔ 1 ≤ m ∧ numFrames ms ≤ 210 * m := by
  simp only [buffersFor, max_le_iff]
  rw [Nat.div_le_iff_le_mul_add_pred (by norm_num)]
  omega

lemma one_le_buffersFor (ms : Nat) : 1 ≤ buffersFor ms := le_max_left _ _

lemma numFrames_le_mul_buffersFor (ms : Nat) :
    numFrames ms ≤ 210 * buffersFor ms :=
  ((buffersFor_le_iff ms (buffersFor ms)).1 le_rfl).2

lemma lt_numFrames_of_lt_buffersFor (ms m : Nat) (h1 : 1 ≤ m)
    (h2 : m < buffersFor ms) : 210 * m < numFrames ms := by
  rcases Nat.lt_or_ge (210 * m) (numFrames ms) with h | h
  · exact h
  · exact absurd ((buffersFor_le_iff ms m).2 ⟨h1, h⟩) (by omega)

lemma numFrames_lt (ms : Nat) (h : ms < 2 ^ 32) : numFrames ms < 2 ^ 48 := by
  simp only [numFrames, SAMPLE_RATE]
  omega

lemma buffersFor_lt (ms : Nat) (h : ms < 2 ^ 32) : buffersFor ms < 2 ^ 49 := by
  have h1 := numFrames_lt ms h
  have h2 := Nat.div_le_self (numFrames ms + 209) 210
  simp only [buffersFor]
  omega

/-- Consuming one `NOTE`/`REST`-like event from an idle voice: it is loaded
by callback 1 and stays loaded for exactly `buffersFor e.ms` callbacks, with
`frames_played` advancing by 210 per callback; the semaphore is untouched
and exactly one queue entry is consumed. -/
lemma run_one_event (e : Note) (q : List Note) (o : Osc)
    (h1 : e.type ≠ WAITING) (h2 : e.type ≠ END) (hms : e.ms < 2 ^ 32)
    (ho : o.frames_played = -1) :
    ∀ m, 1 ≤ m → m ≤ buffersFor e.ms →
      (run 210 m (e :: q, o)).1 = q ∧
      (run 210 m (e :: q, o)).2.curr_note = e ∧
      (run 210 m (e :: q, o)).2.posts = o.posts ∧
      (m = buffersFor e.ms →
        (run 210 m (e :: q, o)).2.frames_played = -1 ∧
        (run 210 m (e :: q, o)).2.num_frames = 0) ∧
      (m < buffersFor e.ms →
        (run 210 m (e :: q, o)).2.frames_played = (210 * m : ℤ) ∧
        (run 210 m (e :: q, o)).2.num_frames = numFrames e.ms) := by
  have hF48 := numFrames_lt e.ms hms
  have hB49 := buffersFor_lt e.ms hms
  have hFB := numFrames_le_mul_buffersFor e.ms
  intro m
  induction m with
  | zero => intro hc; exact absurd hc (by norm_num)
  | succ m ih =>
    intro _ hmB
    by_cases hm0 : m = 0
    · subst hm0
      have hcs := callback_start 210 e q o ho h2 h1 (by norm_num)
      have hrun1 : run 210 1 (e :: q, o) = oscCallback 210 (e :: q, o) := rfl
      rw [hrun1]
      refine ⟨hcs.1, hcs.2.1, hcs.2.2.1, ?_, ?_⟩
      · intro hBeq
        exact hcs.2.2.2.1 (by omega)
      · intro hBlt
        have hlt := lt_numFrames_of_lt_buffersFor e.ms 1 le_rfl hBlt
        have := hcs.2.2.2.2 (by omega)
        simpa using this
    · have hm1 : 1 ≤ m := by omega
      have hmB2 : m ≤ buffersFor e.ms := by omega
      have hmBlt : m < buffersFor e.ms := by omega
      have IH := ih hm1 hmB2
      have hsplit : run 210 (m + 1) (e :: q, o)
          = oscCallback 210 (run 210 m (e :: q, o)) := by
        rw [run_add 210 m 1]
        rfl
      rcases hrm : run 210 m (e :: q, o) with ⟨qm, om⟩
      rw [hrm] at IH hsplit
      rcases IH with ⟨hqm, hcm, hpm, _, hmid⟩
      have hfp : om.frames_played = (210 * m : ℤ) := (hmid hmBlt).1
      have hnf : om.num_frames = numFrames e.ms := (hmid hmBlt).2
      have hcmid := callback_mid 210 qm om (by rw [hfp]; positivity)
        (by rw [hcm]; exact h1) (by rw [hfp]; push_cast; omega)
      rw [hsplit]
      refine ⟨hcmid.1.trans hqm, hcmid.2.1.trans hcm, hcmid.2.2.1.trans hpm,
        ?_, ?_⟩
      · intro hBeq
        refine hcmid.2.2.2.1 ?_
        rw [hfp, hnf]
        have : numFrames e.ms ≤ 210 * (m + 1) := by rw [hBeq] at hmB ⊢; omega
        push_cast
        omega
      · intro hBlt
        have hlt := lt_numFrames_of_lt_buffersFor e.ms (m + 1) (by omega) hBlt
        have hgo := hcmid.2.2.2.2 (by rw [hfp, hnf]; push_cast; omega)
        refine ⟨hgo.1.trans ?_, hgo.2.trans hnf⟩
        rw [hfp]
        push_cast
        ring

/-- Draining a whole list of `NOTE`/`REST` events from an idle voice: it
takes exactly `sumB evs` callbacks, the semaphore is untouched throughout,
and the voice ends idle with the rest of the queue intact. -/
lemma run_events (evs : List Note) (q : List Note) (o : Osc)
    (hevs : ∀ e ∈ evs, e.type ≠ WAITING ∧ e.type ≠ END ∧ e.ms < 2 ^ 32)
    (ho : o.frames_played = -1) :
    (∀ n, n ≤ sumB evs → (run 210 n (evs ++ q, o)).2.posts = o.posts) ∧
    (run 210 (sumB evs) (evs ++ q, o)).1 = q ∧
    (run 210 (sumB evs) (evs ++ q, o)).2.frames_played = -1 := by
  induction evs generalizing o q with
  | nil =>
    refine ⟨fun n hn => ?_, rfl, ho⟩
    have hn0 : n = 0 := by simpa [sumB] using hn
    subst hn0
    rfl
  | cons e evs ih =>
    rcases hevs e (List.mem_cons_self e evs) with ⟨he1, he2, he3⟩
    have hevs2 : ∀ x ∈ evs, x.type ≠ WAITING ∧ x.type ≠ END ∧ x.ms < 2 ^ 32 :=
      fun x hx => hevs x (List.mem_cons_of_mem e hx)
    have hEL := run_one_event e (evs ++ q) o he1 he2 he3 ho
    have hsum : sumB (e :: evs) = buffersFor e.ms + sumB evs := by
      simp [sumB]
    have hca : (e :: evs) ++ q = e :: (evs ++ q) := rfl
    rcases hrB : run 210 (buffersFor e.ms) (e :: (evs ++ q), o) with ⟨qB, oB⟩
    have hatB := hEL (buffersFor e.ms) (one_le_buffersFor e.ms) le_rfl
    rw [hrB] at hatB
    rcases hatB with ⟨hqB, _, hpB, hfB, _⟩
    have hfB2 : oB.frames_played = -1 := (hfB rfl).1
    subst hqB
    have hIH := ih (q := q) (o := oB) hevs2 hfB2
    constructor
    · intro n hn
      by_cases hnB : n ≤ buffersFor e.ms
      · by_cases hn0 : n = 0
        · subst hn0
          rfl
        · exact ((hEL n (by omega) hnB).2.2.1)
      · have hdecomp : n = buffersFor e.ms + (n - buffersFor e.ms) := by omega
        rw [hca, hdecomp, run_add 210 (buffersFor e.ms) (n - buffersFor e.ms),
          hrB]
        exact (hIH.1 (n - buffersFor e.ms) (by omega)).trans hpB
    · rw [hca, hsum, run_add 210 (buffersFor e.ms) (sumB evs), hrB]
      exact ⟨hIH.2.1, hIH.2.2⟩

/-- The buffer count of an event agrees with the spec's real-arithmetic
ceiling expression, except that it is never below one buffer. -/
lemma buffersFor_eq_ceil (ms : Nat) :
    (buffersFor ms : ℤ) = max 1 ⌈((ms : ℚ) / 1000 * 44100) / 210⌉ := by
  have hq : ((ms : ℚ) / 1000 * 44100) / 210 = (21 * ms : ℚ) / 100 := by
    push_cast
    ring
  have hX : ⌈(21 * (ms : ℚ)) / 100⌉ = (((21 * ms + 99) / 100 : Nat) : ℤ) := by
    have h100 : (0 : ℚ) < 100 := by norm_num
    set X : Nat := (21 * ms + 99) / 100 with hXdef
    have hlb : 100 * X ≤ 21 * ms + 99 := by omega
    have hub : 21 * ms ≤ 100 * X := by omega
    have hq1 : (100 * X : ℚ) ≤ 21 * (ms : ℚ) + 99 := by exact_mod_cast hlb
    have hq2 : (21 * (ms : ℚ)) ≤ 100 * X := by exact_mod_cast hub
    rw [Int.ceil_eq_iff]
    push_cast
    constructor
    · rw [lt_div_iff h100]
      linarith
    · rw [div_le_iff h100]
      linarith
  have hiff : ∀ m, (numFrames ms + 209) / 210 ≤ m ↔ (21 * ms + 99) / 100 ≤ m := by
    intro m
    simp only [numFrames, SAMPLE_RATE]
    omega
  have hkey : (numFrames ms + 209) / 210 = (21 * ms + 99) / 100 :=
    Nat.le_antisymm ((hiff ((21 * ms + 99) / 100)).2 le_rfl)
      ((hiff ((numFrames ms + 209) / 210)).1 le_rfl)
  rw [hq, hX, show buffersFor ms = max 1 ((21 * ms + 99) / 100) from by
    rw [buffersFor, hkey]]
  push_cast
  rfl

/-- C2: once `end(voice)` has been enqueued after arbitrarily many notes and
rests, the render callback posts the voice's completion semaphore exactly
once: the post count is 0 for every prefix of callbacks shorter than
`sumB evs + 1` (each preceding event takes its full `buffersFor` callbacks
to render before the `End` can even be dequeued) and is exactly 1 from
callback `sumB evs + 1` on, forever.  Hence `sem_wait` on the voice's
completion semaphore returns exactly once, and never before every earlier
Note/Rest event has been fully rendered. -/
theorem claim_C2 (evs : List Note) (o : Osc)
    (hevs : ∀ e ∈ evs, (e.type = NOTE ∨ e.type = REST) ∧ e.ms < 2 ^ 32)
    (ho : o.frames_played = -1) (hp : o.posts = 0) :
    (∀ n, n < sumB evs + 1 →
      (run 210 n (evs ++ [endNote], o)).2.posts = 0) ∧
    (∀ n, sumB evs + 1 ≤ n →
      (run 210 n (evs ++ [endNote], o)).2.posts = 1) := by
  have hevs2 : ∀ e ∈ evs, e.type ≠ WAITING ∧ e.type ≠ END ∧ e.ms < 2 ^ 32 := by
    intro e he
    rcases hevs e he with ⟨h1, h2⟩
    refine ⟨?_, ?_, h2⟩ <;> rcases h1 with h | h <;>
      simp [h, NOTE, REST, WAITING, END]
  have hre := run_events evs [endNote] o hevs2 ho
  rcases hS : run 210 (sumB evs) (evs ++ [endNote], o) with ⟨qS, oS⟩
  rw [hS] at hre
  rcases hre with ⟨hposts, hqS, hfS⟩
  subst hqS
  have hpostsS : oS.posts = 0 := by
    have h := hposts (sumB evs) le_rfl
    rw [hS] at h
    exact h.trans hp
  have hend := callback_end 210 [] oS hfS
  rcases hE : oscCallback 210 ([endNote], oS) with ⟨qE, oE⟩
  rw [hE] at hend
  dsimp only at hend
  rcases hend with ⟨hqE, hpE, hfE, _, _⟩
  subst hqE
  have hrunN : run 210 (sumB evs + 1) (evs ++ [endNote], o) = ([], oE) := by
    rw [run_add 210 (sumB evs) 1, hS]
    show oscCallback 210 ([endNote], oS) = _
    rw [hE]
  have hpostsE : oE.posts = 1 := by omega
  constructor
  · intro n hn
    exact (hposts n (by omega)).trans hp
  · intro n hn
    have hdecomp : n = (sumB evs + 1) + (n - (sumB evs + 1)) := by omega
    rw [hdecomp, run_add 210 (sumB evs + 1) _, hrunN]
    exact ((run_empty_iter 210 oE hfE _).2.2).trans hpostsE

/-- Witness for C2 at a concrete input: one 5 ms note (which takes 2
buffers) followed by `End`; the semaphore is unposted after 2 callbacks and
posted exactly once from callback 3 on. -/
theorem claim_C2_witness :
    (run 210 2 ([playNote 5 440] ++ [endNote], initOsc (fun _ => 0))).2.posts
      = 0 ∧
    (run 210 3 ([playNote 5 440] ++ [endNote], initOsc (fun _ => 0))).2.posts
      = 1 := by
  have h := claim_C2 [playNote 5 440] (initOsc (fun _ => 0))
    (by decide) rfl rfl
  exact ⟨h.1 2 (by decide), h.2 3 (by decide)⟩

/-- C3 (amended): a dequeued `play`/`rest` event occupies its voice for
exactly `max 1 ⌈duration_ms/1000*sample_rate / frames_per_buffer⌉` whole
buffers of 210 samples — the spec's pure ceiling formula, but never below
one full buffer (a 0 ms event still consumes one buffer) — and that is
always at least the requested duration in samples. -/
theorem claim_C3 (t ms : Nat) (hz : ℚ) (ht : t = NOTE ∨ t = REST)
    (hms : ms < 2 ^ 32) (o : Osc) (ho : o.frames_played = -1) :
    (buffersFor ms : ℤ) = max 1 ⌈((ms : ℚ) / 1000 * 44100) / 210⌉ ∧
    (∀ m, m < buffersFor ms →
      (postRefillOsc 210 m ([⟨t, ms, hz⟩], o)).curr_note = ⟨t, ms, hz⟩) ∧
    (postRefillOsc 210 (buffersFor ms) ([⟨t, ms, hz⟩], o)).curr_note
      ≠ ⟨t, ms, hz⟩ ∧
    (ms : ℚ) / 1000 * 44100 ≤ (buffersFor ms : ℚ) * 210 := by
  have himmNE : (⟨t, ms, hz⟩ : Note).type ≠ END := by
    rcases ht with h | h <;> simp [h, NOTE, REST, END]
  have himmNW : (⟨t, ms, hz⟩ : Note).type ≠ WAITING := by
    rcases ht with h | h <;> simp [h, NOTE, REST, WAITING]
  have hEL := run_one_event ⟨t, ms, hz⟩ [] o himmNW himmNE hms ho
  simp only [show (⟨t, ms, hz⟩ : Note).ms = ms from rfl] at hEL
  refine ⟨buffersFor_eq_ceil ms, ?_, ?_, ?_⟩
  · intro m hm
    by_cases hm0 : m = 0
    · subst hm0
      have hr := refill_idle_cons ⟨t, ms, hz⟩ [] o ho himmNE
      show (refill (run 210 0 ([⟨t, ms, hz⟩], o)).1
        (run 210 0 ([⟨t, ms, hz⟩], o)).2).2.curr_note = _
      show (refill [⟨t, ms, hz⟩] o).2.curr_note = _
      rw [hr]
    · have hIH := hEL m (by omega) (by omega)
      rcases hrm : run 210 m ([⟨t, ms, hz⟩], o) with ⟨qm, om⟩
      rw [hrm] at hIH
      rcases hIH with ⟨_, hcm, _, _, hmid⟩
      have hfp : om.frames_played = (210 * m : ℤ) := (hmid hm).1
      have hni : om.frames_played ≠ -1 := by rw [hfp]; omega
      show (refill (run 210 m ([⟨t, ms, hz⟩], o)).1
        (run 210 m ([⟨t, ms, hz⟩], o)).2).2.curr_note = _
      rw [hrm]
      show (refill qm om).2.curr_note = _
      rw [refill_not_idle qm om hni]
      exact hcm
  · have hIH := hEL (buffersFor ms) (one_le_buffersFor ms) le_rfl
    rcases hrB : run 210 (buffersFor ms) ([⟨t, ms, hz⟩], o) with ⟨qB, oB⟩
    rw [hrB] at hIH
    rcases hIH with ⟨hqB, _, _, hfin, _⟩
    subst hqB
    show (refill (run 210 (buffersFor ms) ([⟨t, ms, hz⟩], o)).1
      (run 210 (buffersFor ms) ([⟨t, ms, hz⟩], o)).2).2.curr_note ≠ _
    rw [hrB]
    show (refill [] oB).2.curr_note ≠ _
    rw [refill_idle_nil oB (hfin rfl).1]
    intro hcontra
    have := congrArg Note.type hcontra
    simp only [waitingNote, WAITING] at this
    rcases ht with h | h <;> simp [h, NOTE, REST] at this
  · have h1 := numFrames_le_mul_buffersFor ms
    simp only [numFrames, SAMPLE_RATE] at h1
    have h2 : 441 * ms ≤ 2100 * buffersFor ms := by omega
    have hq : (ms : ℚ) / 1000 * 44100 = (441 * ms : ℚ) / 10 := by
      push_cast
      ring
    rw [hq, div_le_iff (by norm_num : (0 : ℚ) < 10)]
    have h3 : ((441 * ms : Nat) : ℚ) ≤ ((2100 * buffersFor ms : Nat) : ℚ) := by
      exact_mod_cast h2
    push_cast at h3 ⊢
    linarith

/-- Counterexample to C3 as stated: a `Rest` of 0 ms still occupies its
voice for the whole first buffer (210 samples), while the claim's formula
`ceil(0/1000*44100/210) * 210` yields 0 samples. -/
theorem claim_C3_counterexample :
    (postRefillOsc 210 0 ([restNote 0], initOsc (fun _ => 0))).curr_note
      = restNote 0 ∧
    (⌈(((0 : Nat) : ℚ) / 1000 * 44100) / 210⌉ * 210 : ℤ) = 0 ∧
    (210 : ℤ) ≠ 0 := by
  refine ⟨?_, by norm_num, by norm_num⟩
  have hr := refill_idle_cons (restNote 0) [] (initOsc (fun _ => 0)) rfl
    (by decide)
  show (refill [restNote 0] (initOsc (fun _ => 0))).2.curr_note = restNote 0
  rw [hr]

/-- Witness for C3 at a concrete input: a 1 ms rest occupies exactly one
whole buffer (it is loaded for callback 1 and gone at callback 2). -/
theorem claim_C3_witness :
    (postRefillOsc 210 0 ([⟨REST, 1, 0⟩], initOsc (fun _ => 0))).curr_note
      = ⟨REST, 1, 0⟩ ∧
    (postRefillOsc 210 (buffersFor 1)
      ([⟨REST, 1, 0⟩], initOsc (fun _ => 0))).curr_note ≠ ⟨REST, 1, 0⟩ := by
  have h := claim_C3 REST 1 0 (Or.inr rfl) (by norm_num)
    (initOsc (fun _ => 0)) rfl
  exact ⟨h.2.1 0 (by decide), h.2.2.1⟩

/-- C8: with `frames_per_buffer = 210`, a dequeued `Rest{0 ms}` gets
`frames_total = 0`, is not `WAITING` (so `frames_played` is advanced by the
full buffer at the end of the callback, where the idle check
`frames_played >= frames_total` then succeeds), and the voice is back to
idle after exactly that one callback, with the queue entry consumed and the
semaphore untouched — rendering never stalls on it. -/
theorem claim_C8 :
    (refill [restNote 0] (initOsc (fun _ => 0))).2.num_frames = 0 ∧
    (refill [restNote 0] (initOsc (fun _ => 0))).2.frames_played = 0 ∧
    (restNote 0).type ≠ WAITING ∧
    (oscRenderFrom 210 0 210
        (refill [restNote 0] (initOsc (fun _ => 0))).2).frames_played
      + (210 : ℤ) = 210 ∧
    (oscRenderFrom 210 0 210
        (refill [restNote 0] (initOsc (fun _ => 0))).2).num_frames
      ≤ u64 ((oscRenderFrom 210 0 210
        (refill [restNote 0] (initOsc (fun _ => 0))).2).frames_played
      + (210 : ℤ)) ∧
    (oscCallback 210 ([restNote 0], initOsc (fun _ => 0))).1 = [] ∧
    (oscCallback 210 ([restNote 0], initOsc (fun _ => 0))).2.frames_played
      = -1 ∧
    (oscCallback 210 ([restNote 0], initOsc (fun _ => 0))).2.num_frames = 0 ∧
    (oscCallback 210 ([restNote 0], initOsc (fun _ => 0))).2.posts = 0 := by
  have hr := refill_idle_cons (restNote 0) [] (initOsc (fun _ => 0)) rfl
    (by decide)
  have hst := oscRenderFrom_state 210 210 0
    (refill [restNote 0] (initOsc (fun _ => 0))).2
  have hcs := callback_start 210 (restNote 0) [] (initOsc (fun _ => 0)) rfl
    (by decide) (by decide) (by norm_num)
  refine ⟨by rw [hr]; try rfl, by rw [hr]; try rfl, by decide, ?_, ?_, hcs.1,
    (hcs.2.2.2.1 (by decide)).1, (hcs.2.2.2.1 (by decide)).2, hcs.2.2.1⟩
  · rw [hst.1, hr]
    norm_num
  · rw [hst.2.1, hr]
    exact Nat.zero_le _

/-- C7 (amended): when the render callback loads a non-`End` event, it sets
`frames_total` to the TRUNCATION (floor, for these nonnegative values) of
`duration_ms / 1000 * sample_rate` — the C cast of the double to
`unsigned long` — not to the nearest integer. -/
theorem claim_C7 (n : Note) (q : List Note) (o : Osc)
    (ho : o.frames_played = -1) (hn : n.type ≠ END) :
    (refill (n :: q) o).2.num_frames = numFrames n.ms ∧
    (numFrames n.ms : ℤ) = ⌊(n.ms : ℚ) / 1000 * 44100⌋ := by
  constructor
  · rw [refill_idle_cons n q o ho hn]
  · have hq : (n.ms : ℚ) / 1000 * 44100 = ((n.ms * 44100 : Nat) : ℚ) / 1000 := by
      push_cast
      ring
    have hlb : 1000 * numFrames n.ms ≤ n.ms * 44100 := by
      simp only [numFrames, SAMPLE_RATE]
      omega
    have hub : n.ms * 44100 < 1000 * numFrames n.ms + 1000 := by
      simp only [numFrames, SAMPLE_RATE]
      omega
    have h1 : ((numFrames n.ms : ℤ) : ℚ) ≤ ((n.ms * 44100 : Nat) : ℚ) / 1000 := by
      rw [le_div_iff (by norm_num : (0 : ℚ) < 1000)]
      have : (1000 * numFrames n.ms : ℚ) ≤ ((n.ms * 44100 : Nat) : ℚ) := by
        exact_mod_cast hlb
      push_cast at this ⊢
      linarith
    have h2 : ((n.ms * 44100 : Nat) : ℚ) / 1000 < (numFrames n.ms : ℤ) + 1 := by
      rw [div_lt_iff (by norm_num : (0 : ℚ) < 1000)]
      have : ((n.ms * 44100 : Nat) : ℚ) < 1000 * numFrames n.ms + 1000 := by
        exact_mod_cast hub
      push_cast at this ⊢
      linarith
    rw [hq]
    exact (Int.floor_eq_iff.2 ⟨h1, h2⟩).symm

/-- Counterexample to C7 as stated: loading a 17 ms note sets
`frames_total = 749` (truncation of 749.7), while
`round(17/1000 * 44100) = 750`. -/
theorem claim_C7_counterexample :
    (refill [⟨NOTE, 17, 440⟩] (initOsc (fun _ => 0))).2.num_frames = 749 ∧
    round ((17 : ℚ) / 1000 * 44100) = 750 ∧ (749 : ℤ) ≠ 750 := by
  refine ⟨?_, by norm_num [round_eq], by norm_num⟩
  rw [refill_idle_cons ⟨NOTE, 17, 440⟩ [] (initOsc (fun _ => 0)) rfl
    (by decide)]
  decide

/-- Witness for C7 at a concrete input: loading a 3 ms rest sets
`frames_total = numFrames 3 = 132 = floor(132.3)`. -/
theorem claim_C7_witness :
    (refill [restNote 3] (initOsc (fun _ => 0))).2.num_frames = numFrames 3 ∧
    (numFrames 3 : ℤ) = ⌊((restNote 3).ms : ℚ) / 1000 * 44100⌋ := by
  have h := claim_C7 (restNote 3) [] (initOsc (fun _ => 0)) rfl (by decide)
  exact ⟨h.1, h.2⟩

/-- C6 (amended): an event whose tag is none of `REST`, `WAITING`, `END`
(whether the declared `NOTE` or any out-of-range value) is rendered by
`getNextFrame` exactly like a `Note`: the wavetable is sampled at the
truncated phases and the phases advance — it is NOT treated as silence; no
error condition is raised either way. -/
theorem claim_C6 (o : Osc) (h1 : o.curr_note.type ≠ REST)
    (h2 : o.curr_note.type ≠ WAITING) (h3 : o.curr_note.type ≠ END) :
    (getNextFrame o).1.left = o.table (cTrunc o.left_phase) ∧
    (getNextFrame o).1.right = o.table (cTrunc o.right_phase) ∧
    (getNextFrame o).1
      = (getNextFrame { o with curr_note := asNote o.curr_note }).1 ∧
    (getNextFrame o).2.left_phase
      = (getNextFrame { o with curr_note := asNote o.curr_note }).2.left_phase ∧
    (getNextFrame o).2.right_phase
      = (getNextFrame { o with curr_note := asNote o.curr_note }).2.right_phase
    := by
  have hcond : ¬(o.curr_note.type = REST ∨ o.curr_note.type = WAITING ∨
      o.curr_note.type = END) := by
    tauto
  have hcond2 : ¬((asNote o.curr_note).type = REST
      ∨ (asNote o.curr_note).type = WAITING
      ∨ (asNote o.curr_note).type = END) := by
    simp [asNote, NOTE, REST, WAITING, END]
  simp only [getNextFrame, if_neg hcond, if_neg hcond2]
  refine ⟨?_, ?_, ?_, ?_, ?_⟩ <;> trivial

/-- Counterexample to C6 as stated: an event with the out-of-range tag 4
does NOT produce silence — on the sawtooth table at phase 0 the render path
emits the full-scale sample 1. -/
theorem claim_C6_counterexample :
    ((⟨4, 100, 0⟩ : Note).type ≠ NOTE ∧ (⟨4, 100, 0⟩ : Note).type ≠ REST ∧
     (⟨4, 100, 0⟩ : Note).type ≠ WAITING ∧
     (⟨4, 100, 0⟩ : Note).type ≠ END) ∧
    (getNextFrame (mkOsc sawQ 0 0 ⟨4, 100, 0⟩)).1.left = 1 ∧ (1 : ℚ) ≠ 0 := by
  refine ⟨by decide, ?_, by norm_num⟩
  have hcond : ¬((⟨4, 100, (0 : ℚ)⟩ : Note).type = REST ∨
      (⟨4, 100, (0 : ℚ)⟩ : Note).type = WAITING ∨
      (⟨4, 100, (0 : ℚ)⟩ : Note).type = END) := by
    decide
  simp only [mkOsc, getNextFrame, if_neg hcond]
  norm_num [sawQ, cTrunc]

/-- Witness for C6 at a concrete input: the tag-4 event renders as a
wavetable lookup, exactly like a `Note`. -/
theorem claim_C6_witness :
    (getNextFrame (mkOsc sawQ 0 0 ⟨4, 100, 0⟩)).1.left
      = sawQ (cTrunc (0 : ℚ)) := by
  have h := claim_C6 (mkOsc sawQ 0 0 ⟨4, 100, 0⟩)
    (by decide) (by decide) (by decide)
  exact h.1

/-- C1 (code bug): the envelope volume IS computed and stored in
`osc->vol` (here `1/2`, at buffer index 104 of a note's first buffer), but
the frame `getNextFrame` contributes to the output buffer is the raw
wavetable sample (here `1`), NOT the sample multiplied by the volume: the
envelope is never applied to the audio.  (`osc->vol` is written on every
sample and read nowhere in synth.c.) -/
theorem claim_C1 :
    (oscSample 210 104 (mkOsc sawQ 0 44100 ⟨NOTE, 1000, 0⟩)).2.vol = 1 / 2 ∧
    (oscSample 210 104 (mkOsc sawQ 0 44100 ⟨NOTE, 1000, 0⟩)).1.left = 1 ∧
    (oscSample 210 104 (mkOsc sawQ 0 44100 ⟨NOTE, 1000, 0⟩)).1.left
      ≠ (oscSample 210 104 (mkOsc sawQ 0 44100 ⟨NOTE, 1000, 0⟩)).2.vol
        * sawQ (cTrunc (0 : ℚ)) := by
  have hvol : volAt (0 : ℤ) 44100 210 104 = 1 / 2 := by
    norm_num [volAt]
  have hcond : ¬((⟨NOTE, 1000, (0 : ℚ)⟩ : Note).type = REST ∨
      (⟨NOTE, 1000, (0 : ℚ)⟩ : Note).type = WAITING ∨
      (⟨NOTE, 1000, (0 : ℚ)⟩ : Note).type = END) := by
    decide
  have hsaw : sawQ (cTrunc (0 : ℚ)) = 1 := by
    norm_num [sawQ, cTrunc]
  have hv2 : (oscSample 210 104 (mkOsc sawQ 0 44100 ⟨NOTE, 1000, 0⟩)).2.vol
      = 1 / 2 := by
    show (getNextFrame _).2.vol = 1 / 2
    rw [(getNextFrame_state _).2.2.2.2.1]
    exact hvol
  have hlf : (oscSample 210 104 (mkOsc sawQ 0 44100 ⟨NOTE, 1000, 0⟩)).1.left
      = 1 := by
    show (getNextFrame _).1.left = 1
    simp only [mkOsc, getNextFrame, if_neg hcond]
    exact hsaw
  refine ⟨hv2, hlf, ?_⟩
  rw [hv2, hlf, hsaw]
  norm_num

/-- C4: in every state the render loop can actually be in — a freshly
loaded event (`frames_played = 0`) or an event carried over from earlier
callbacks (`frames_per_buffer ≤ frames_played < frames_total`, see
`renderInv_hold`) — the volume the code computes agrees with the spec's
formula: `(i+1)/fpb` when `frames_played = 0` (the ramp-up branch is tested
first, so it wins even for a note of at most one buffer, for any
`frames_total`), `1 - (i+1)/fpb` when `frames_played ≠ 0` and
`frames_played ≥ frames_total - frames_per_buffer`, and `1` otherwise. -/
theorem claim_C4 (fp : ℤ) (nf fpb i : Nat) (hfpb : 0 < fpb)
    (hnf : nf < 2 ^ 63)
    (hreach : fp = 0 ∨ ((fpb : ℤ) ≤ fp ∧ fp < (nf : ℤ))) :
    volAt fp nf fpb i = claimVol fp nf fpb i ∧
    (∀ nf2 : Nat, volAt 0 nf2 fpb i = ((i : ℚ) + 1) / (fpb : ℚ)) := by
  constructor
  · rcases hreach with h0 | ⟨hge, hlt⟩
    · subst h0
      simp [volAt, claimVol]
    · have hfp0 : fp ≠ 0 := by omega
      have hu : u64 fp = fp.toNat := by
        simp only [u64]
        omega
      have hsub : subU64 nf fpb = nf - fpb := by
        simp only [subU64]
        omega
      have hiff : (nf - fpb ≤ fp.toNat) ↔ ((nf : ℤ) - (fpb : ℤ) ≤ fp) := by
        omega
      simp only [volAt, claimVol, if_neg hfp0, hu, hsub]
      by_cases hc : (nf : ℤ) - (fpb : ℤ) ≤ fp
      · rw [if_pos (hiff.2 hc), if_pos hc]
      · rw [if_neg (fun h => hc (hiff.1 h)), if_neg hc]
  · intro nf2
    simp [volAt]

/-- Witness for C4 at concrete inputs: a carried-over state (ramp-down
region check) and a `frames_played = 0` state. -/
theorem claim_C4_witness :
    volAt 210 1000 210 0 = claimVol 210 1000 210 0 ∧
    volAt 0 5 210 0 = ((0 : ℚ) + 1) / ((210 : ℕ) : ℚ) := by
  have h := claim_C4 210 1000 210 0 (by norm_num) (by norm_num)
    (Or.inr ⟨by norm_num, by norm_num⟩)
  exact ⟨h.1, h.2 5⟩

/-- One `getNextFrame` call keeps both phase accumulators inside
`[0, TABLE_SIZE)` when the current frequency is in `[0, 20000]`. -/
lemma getNextFrame_phase_bounds (o : Osc)
    (hhz0 : 0 ≤ o.curr_note.hz) (hhz1 : o.curr_note.hz ≤ 20000)
    (hl0 : 0 ≤ o.left_phase) (hl1 : o.left_phase < 210)
    (hr0 : 0 ≤ o.right_phase) (hr1 : o.right_phase < 210) :
    (0 ≤ (getNextFrame o).2.left_phase ∧ (getNextFrame o).2.left_phase < 210)
    ∧ (0 ≤ (getNextFrame o).2.right_phase ∧
       (getNextFrame o).2.right_phase < 210) := by
  have hd0 : 0 ≤ o.curr_note.hz / 210 := by positivity
  have hd1 : o.curr_note.hz / 210 < 210 := by
    rw [div_lt_iff (by norm_num : (0 : ℚ) < 210)]
    linarith
  simp only [getNextFrame, TABLE_SIZE]
  split
  · exact ⟨⟨hl0, hl1⟩, hr0, hr1⟩
  · push_cast
    split_ifs with hL hR hR <;>
      refine ⟨⟨by linarith, by linarith⟩, by linarith, by linarith⟩

/-- The C truncation of a rational in `[0, 210)` is an integer in
`[0, 210)` (an in-bounds index into a table of length 210). -/
lemma cTrunc_bounds (q : ℚ) (h0 : 0 ≤ q) (h1 : q < 210) :
    0 ≤ cTrunc q ∧ cTrunc q < 210 := by
  simp only [cTrunc, if_pos h0]
  refine ⟨Int.floor_nonneg.2 h0, ?_⟩
  have h2 : (⌊q⌋ : ℚ) < 210 := (Int.floor_le q).trans_lt h1
  exact_mod_cast h2

/-- C5: for a voice whose current event's frequency lies in `[0, 20000]`
and whose phases start in `[0, TABLE_SIZE)`, both phases are still in
`[0, TABLE_SIZE)` after any number `n` of consecutive rendered samples (no
drift), and consequently the truncated phases are always in-bounds table
indices. -/
theorem claim_C5 (o : Osc) (n : Nat)
    (hhz0 : 0 ≤ o.curr_note.hz) (hhz1 : o.curr_note.hz ≤ 20000)
    (hl0 : 0 ≤ o.left_phase) (hl1 : o.left_phase < 210)
    (hr0 : 0 ≤ o.right_phase) (hr1 : o.right_phase < 210) :
    (0 ≤ (gnfIter n o).left_phase ∧ (gnfIter n o).left_phase < 210) ∧
    (0 ≤ (gnfIter n o).right_phase ∧ (gnfIter n o).right_phase < 210) ∧
    (0 ≤ cTrunc (gnfIter n o).left_phase ∧
      cTrunc (gnfIter n o).left_phase < 210) ∧
    (0 ≤ cTrunc (gnfIter n o).right_phase ∧
      cTrunc (gnfIter n o).right_phase < 210) := by
  induction n generalizing o with
  | zero =>
    exact ⟨⟨hl0, hl1⟩, ⟨hr0, hr1⟩, cTrunc_bounds _ hl0 hl1,
      cTrunc_bounds _ hr0 hr1⟩
  | succ n ih =>
    have hb := getNextFrame_phase_bounds o hhz0 hhz1 hl0 hl1 hr0 hr1
    have hcn := (getNextFrame_state o).2.2.1
    have hstep : gnfIter (n + 1) o = gnfIter n (getNextFrame o).2 := rfl
    rw [hstep]
    exact ih (getNextFrame o).2 (by rw [hcn]; exact hhz0)
      (by rw [hcn]; exact hhz1) hb.1.1 hb.1.2 hb.2.1 hb.2.2

/-- Witness for C5 at a concrete input: three samples of a 440 Hz note
starting from phase 0. -/
theorem claim_C5_witness :
    (0 ≤ (gnfIter 3 (mkOsc sawQ 0 44100 ⟨NOTE, 1000, 440⟩)).left_phase ∧
      (gnfIter 3 (mkOsc sawQ 0 44100 ⟨NOTE, 1000, 440⟩)).left_phase < 210) ∧
    (0 ≤ (gnfIter 3 (mkOsc sawQ 0 44100 ⟨NOTE, 1000, 440⟩)).right_phase ∧
      (gnfIter 3 (mkOsc sawQ 0 44100 ⟨NOTE, 1000, 440⟩)).right_phase < 210)
    := by
  have h := claim_C5 (mkOsc sawQ 0 44100 ⟨NOTE, 1000, 440⟩) 3
    (by norm_num [mkOsc]) (by norm_num [mkOsc]) (by norm_num [mkOsc])
    (by norm_num [mkOsc]) (by norm_num [mkOsc]) (by norm_num [mkOsc])
  exact ⟨h.1, h.2.1⟩

/-- C10: `initTables` fills the "noise" table with exactly the same
expression as the sine table: for every index `i` in `[0, TABLE_SIZE)`,
`noise[i] = sine[i] = sin(i/TABLE_SIZE * 2π)` — the "noise" waveform is a
sine tone, not noise. -/
theorem claim_C10 : ∀ i : Fin TABLE_SIZE,
    noise ((i : ℕ) : ℤ) = sine ((i : ℕ) : ℤ) ∧
    sine ((i : ℕ) : ℤ)
      = Real.sin ((((i : ℕ) : ℤ) : ℝ) / (TABLE_SIZE : ℝ) * (2 * Real.pi)) := by
  intro i
  refine ⟨rfl, ?_⟩
  unfold sine
  exact congrArg Real.sin (by ring)

/-! Reachability invariant justifying the hypotheses of `claim_C4`: the
states `volAt` is evaluated at during the render loop satisfy
`frames_played = 0 ∨ 210 ≤ frames_played < num_frames`. -/

lemma renderInv_hold (q : List Note) (o : Osc)
    (hq : ∀ e ∈ q, e.type ≠ WAITING ∧ e.ms < 2 ^ 32)
    (h : endInv o) : renderInv (refill q o).2 := by
  rcases h with hidle | ⟨hty, h210, hlt, h63⟩
  · cases q with
    | nil =>
      rw [refill_idle_nil o hidle]
      refine ⟨Or.inl rfl, by norm_num, fun _ => ⟨rfl, rfl⟩⟩
    | cons n q2 =>
      rcases hq n (List.mem_cons_self n q2) with ⟨hnw, hn32⟩
      by_cases hend : n.type = END
      · rw [refill_idle_endtype n q2 o hidle hend]
        exact ⟨Or.inl rfl, by norm_num, fun _ => ⟨rfl, rfl⟩⟩
      · rw [refill_idle_cons n q2 o hidle hend]
        have h48 := numFrames_lt n.ms hn32
        refine ⟨Or.inl rfl, ?_, fun hw => absurd hw hnw⟩
        show numFrames n.ms < 2 ^ 63
        omega
  · rw [refill_not_idle q o (by omega)]
    exact ⟨Or.inr ⟨h210, hlt⟩, h63, fun hw => absurd hw hty⟩

lemma endInv_bookkeep (o : Osc) (h : renderInv o) : endInv (bookkeep 210 o) := by
  rcases h with ⟨hfp, h63, hwait⟩
  by_cases hty : o.curr_note.type = WAITING
  · rcases hwait hty with ⟨hnf0, hfp0⟩
    exact Or.inl (bookkeep_wait_zero 210 o hty hfp0 hnf0).1
  · rcases hfp with h0 | ⟨h210, hlt⟩
    · by_cases hle : (o.num_frames : ℤ) ≤ o.frames_played + 210
      · exact Or.inl (bookkeep_adv_done 210 o hty (by omega) (by omega) hle).1
      · have hgo := bookkeep_adv_go 210 o hty (by omega) (by omega) (by omega)
        refine Or.inr ⟨by rw [bookkeep_curr]; exact hty, ?_, ?_, ?_⟩
        · rw [hgo.1]
          omega
        · rw [hgo.1, hgo.2]
          omega
        · rw [hgo.2]
          exact h63
    · by_cases hle : (o.num_frames : ℤ) ≤ o.frames_played + 210
      · exact Or.inl (bookkeep_adv_done 210 o hty (by omega) (by omega) hle).1
      · have hgo := bookkeep_adv_go 210 o hty (by omega) (by omega) (by omega)
        refine Or.inr ⟨by rw [bookkeep_curr]; exact hty, ?_, ?_, ?_⟩
        · rw [hgo.1]
          omega
        · rw [hgo.1, hgo.2]
          omega
        · rw [hgo.2]
          exact h63

lemma renderInv_oscRenderFrom (fpb : Nat) (k i : Nat) (o : Osc)
    (h : renderInv o) : renderInv (oscRenderFrom fpb i k o) := by
  have hst := oscRenderFrom_state fpb k i o
  unfold renderInv at h ⊢
  rw [hst.1, hst.2.1, hst.2.2.1]
  exact h

lemma endInv_oscCallback (q : List Note) (o : Osc)
    (hq : ∀ e ∈ q, e.type ≠ WAITING ∧ e.ms < 2 ^ 32)
    (h : endInv o) : endInv (oscCallback 210 (q, o)).2 := by
  simp only [oscCallback]
  exact endInv_bookkeep _ (renderInv_oscRenderFrom 210 210 0 _
    (renderInv_hold q o hq h))

lemma endInv_initOsc (t : ℤ → ℚ) : endInv (initOsc t) := Or.inl rfl

/-! Stereo-channel equality (C9). -/

lemma getNextFrame_phase_eq (o : Osc) (h : o.left_phase = o.right_phase) :
    (getNextFrame o).1.left = (getNextFrame o).1.right ∧
    (getNextFrame o).2.left_phase = (getNextFrame o).2.right_phase := by
  simp only [getNextFrame]
  split
  · exact ⟨rfl, h⟩
  · rw [h]
    exact ⟨rfl, rfl⟩

lemma oscSample_phase_eq (fpb i : Nat) (o : Osc)
    (h : o.left_phase = o.right_phase) :
    (oscSample fpb i o).1.left = (oscSample fpb i o).1.right ∧
    (oscSample fpb i o).2.left_phase = (oscSample fpb i o).2.right_phase :=
  getNextFrame_phase_eq _ h

lemma oscRenderFrom_phase_eq (fpb : Nat) : ∀ (k i : Nat) (o : Osc),
    o.left_phase = o.right_phase →
    (oscRenderFrom fpb i k o).left_phase
      = (oscRenderFrom fpb i k o).right_phase := by
  intro k
  induction k with
  | zero => exact fun i o h => h
  | succ k ih =>
    intro i o h
    exact ih (i + 1) (oscSample fpb i o).2 (oscSample_phase_eq fpb i o h).2

lemma refill_phases (q : List Note) (o : Osc) :
    (refill q o).2.left_phase = o.left_phase ∧
    (refill q o).2.right_phase = o.right_phase := by
  cases q <;> simp only [refill] <;> split_ifs <;> exact ⟨rfl, rfl⟩

lemma bookkeep_phases (fpb : Nat) (o : Osc) :
    (bookkeep fpb o).left_phase = o.left_phase ∧
    (bookkeep fpb o).right_phase = o.right_phase := by
  simp only [bookkeep]
  split <;> split <;> exact ⟨rfl, rfl⟩

lemma oscCallback_phase_eq (fpb : Nat) (q : List Note) (o : Osc)
    (h : o.left_phase = o.right_phase) :
    (oscCallback fpb (q, o)).2.left_phase
      = (oscCallback fpb (q, o)).2.right_phase := by
  simp only [oscCallback]
  rw [(bookkeep_phases fpb _).1, (bookkeep_phases fpb _).2]
  refine oscRenderFrom_phase_eq fpb fpb 0 _ ?_
  rw [(refill_phases q o).1, (refill_phases q o).2]
  exact h

lemma renderOscs_channel_eq (fpb i : Nat) (os : List Osc)
    (h : ∀ o ∈ os, o.left_phase = o.right_phase) :
    (renderOscs fpb i os).1.left = (renderOscs fpb i os).1.right ∧
    ∀ o2 ∈ (renderOscs fpb i os).2,
      o2.left_phase = o2.right_phase := by
  induction os with
  | nil =>
    refine ⟨rfl, ?_⟩
    intro o2 hmem
    simp only [renderOscs, List.not_mem_nil] at hmem
  | cons o os ih =>
    have ho := h o (List.mem_cons_self o os)
    have hos := ih (fun x hx => h x (List.mem_cons_of_mem o hx))
    have hsamp := oscSample_phase_eq fpb i o ho
    simp only [renderOscs]
    constructor
    · rw [hos.1, hsamp.1]
    · intro o2 hmem
      rcases List.mem_cons.1 hmem with hmem | hmem
      · rw [hmem]
        exact hsamp.2
      · exact hos.2 o2 hmem

lemma renderFrom_channel_eq (fpb : Nat) : ∀ (k i : Nat) (os : List Osc),
    (∀ o ∈ os, o.left_phase = o.right_phase) →
    ∀ f ∈ (renderFrom fpb i k os).1, f.left = f.right := by
  intro k
  induction k with
  | zero =>
    intro i os _ f hf
    have hnil : (renderFrom fpb i 0 os).1 = [] := rfl
    rw [hnil] at hf
    exact absurd hf (List.not_mem_nil f)
  | succ k ih =>
    intro i os h f hf
    have hro := renderOscs_channel_eq fpb i os h
    simp only [renderFrom] at hf
    rcases List.mem_cons.1 hf with hf | hf
    · rw [hf]
      exact hro.1
    · exact ih (i + 1) (renderOscs fpb i os).2 hro.2 f hf

/-- C9: the two phase accumulators of a voice start at 0, remain equal in
every state reachable through any sequence of render callbacks (they are
advanced by the same increment and wrapped by the same test every sample),
and therefore each voice's frame — and the whole mixed interleaved stereo
output of the callback — carries identical left and right channels
(duplicated mono). -/
theorem claim_C9 :
    (∀ t : ℤ → ℚ, (initOsc t).left_phase = 0 ∧ (initOsc t).right_phase = 0) ∧
    (∀ o : Osc, ReachableOsc o → o.left_phase = o.right_phase) ∧
    (∀ o : Osc, o.left_phase = o.right_phase →
      (getNextFrame o).1.left = (getNextFrame o).1.right) ∧
    (∀ (fpb : Nat) (vs : List (List Note × Osc)),
      (∀ v ∈ vs, v.2.left_phase = v.2.right_phase) →
      ∀ f ∈ (paCallback fpb vs).2, f.left = f.right) := by
  refine ⟨fun t => ⟨rfl, rfl⟩, ?_, fun o h => (getNextFrame_phase_eq o h).1,
    ?_⟩
  · intro o h
    rcases h with ⟨steps, t, rfl⟩
    have hgen : ∀ (steps2 : List (Nat × List Note)) (a : Osc),
        a.left_phase = a.right_phase →
        (steps2.foldl (fun acc s => (oscCallback s.1 (s.2, acc)).2)
          a).left_phase
          = (steps2.foldl (fun acc s => (oscCallback s.1 (s.2, acc)).2)
          a).right_phase := by
      intro steps2
      induction steps2 with
      | nil => exact fun a h => h
      | cons s steps2 ih =>
        intro a h
        exact ih _ (oscCallback_phase_eq s.1 s.2 a h)
    exact hgen steps (initOsc t) rfl
  · intro fpb vs h f hf
    have hmap : ∀ o ∈ (vs.map (fun v => refill v.1 v.2)).map Prod.snd,
        o.left_phase = o.right_phase := by
      intro o ho
      simp only [List.map_map, List.mem_map, Function.comp] at ho
      rcases ho with ⟨v, hv, rfl⟩
      rw [(refill_phases v.1 v.2).1, (refill_phases v.1 v.2).2]
      exact h v hv
    have hfr := renderFrom_channel_eq fpb fpb 0
      ((vs.map (fun v => refill v.1 v.2)).map Prod.snd) hmap
    have hf2 : f ∈ (renderFrom fpb 0 fpb
        ((vs.map (fun v => refill v.1 v.2)).map Prod.snd)).1 := by
      simpa only [paCallback] using hf
    exact hfr f hf2

/-- Witness for C9 at a concrete input: the freshly initialized voice is
reachable and has equal phases. -/
theorem claim_C9_witness :
    (initOsc (fun _ => 0)).left_phase = (initOsc (fun _ => 0)).right_phase :=
  claim_C9.2.1 (initOsc (fun _ => 0)) ⟨[], fun _ => 0, rfl⟩

/-- Every `paCallback` invocation acts on each voice (queue and oscillator)
exactly as the single-voice `oscCallback`: voices are mutually independent
apart from the mixed output frames. -/
lemma paCallback_voices (fpb : Nat) (vs : List (List Note × Osc)) :
    (paCallback fpb vs).1 = vs.map (oscCallback fpb) := by
  have hrs : ∀ (i : Nat) (os : List Osc),
      (renderOscs fpb i os).2 = os.map (fun o => (oscSample fpb i o).2) := by
    intro i os
    induction os with
    | nil => rfl
    | cons o os ih =>
      simp only [renderOscs, List.map]
      rw [ih]
  have hrf : ∀ (k i : Nat) (os : List Osc),
      (renderFrom fpb i k os).2 = os.map (oscRenderFrom fpb i k) := by
    intro k
    induction k with
    | zero =>
      intro i os
      show os = os.map (oscRenderFrom fpb i 0)
      induction os with
      | nil => rfl
      | cons o os ih2 =>
        simp only [List.map]
        rw [← ih2]
        rfl
    | succ k ih =>
      intro i os
      simp only [renderFrom]
      rw [hrs, ih (i + 1), List.map_map]
      rfl
  simp only [paCallback]
  rw [hrf]
  simp only [List.map_map]
  rw [List.zip_map']
  rfl

end Synth
